import Mathlib

/-!
# Verification of the swifer region allocator and mark-and-sweep collector

A shallow embedding of `src/heap.rs` (the fixed-capacity `Heap` region) and
`src/gc/mas.rs` (the `MarkAndSweepMem` collector).

Modelling conventions:
* A managed pointer (`HeapPtr` implementors in the source) is `Ptr M`: a raw
  address (`Nat`, the byte offset of the allocation) plus host metadata `M`.
* The host-supplied hooks of the `HeapPtr` / `GcCandidate` traits
  (`size_of_val`, `collect_managed_pointers`, `adjust_ptrs`, `copy_meta`,
  `has_significant_meta`, `eq_ignoring_meta`, and the metadata produced by
  `from_raw_ptr`) are bundled in a `GcModel`.
* A `Heap` region keeps its directory as the list `entries` of
  (pointer, value) pairs: the source keeps `indexes : Vec<Ptr>` and the value
  bytes at each pointer's address; pairing them is equivalent because every
  access goes through a directory entry.
* Rust panics are `none` / dedicated result constructors; the `expect`
  inside the collector's `find` closure makes the pointer-rewrite hook
  monadic (`adjustPtrs` returns `Option`).
* The iterative mark loop is embedded with explicit fuel; `gcFuel` is a
  bound proved sufficient, so the `fuelOut` sentinel encodes only the
  (impossible) exhaustion of the bound, not a behaviour of the source.
-/

/-- A managed pointer: a raw address plus host metadata
(the `HeapPtr` trait's "pointer with optional metadata"). -/
structure Ptr (M : Type) where
  addr : Nat
  meta : M
deriving DecidableEq, Repr

/-- The host-side hooks consumed by the heap and the collector:
the `DynSized`, `GcCandidate` and `HeapPtr` trait surface of the source. -/
structure GcModel (V M : Type) where
  /-- `mem::size_of_val`: the byte size of a stored value. -/
  size : V → Nat
  /-- `GcCandidate::collect_managed_pointers(&self, this)`. -/
  collectManagedPointers : V → Ptr M → List (Ptr M)
  /-- `GcCandidate::adjust_ptrs(&mut self, adjust, this)`. The translate
  function handed over by the collector panics on a missing relocation entry
  (`expect`), so the hook is embedded monadically: `none` = that panic. -/
  adjustPtrs : V → (Ptr M → Option (Ptr M)) → Ptr M → Option V
  /-- The metadata carried by a pointer fresh out of `HeapPtr::from_raw_ptr`. -/
  freshMeta : M
  /-- `HeapPtr::copy_meta(&mut self, other)`: the new metadata of `self`
  from (self's metadata, other's metadata). -/
  copyMeta : M → M → M
  /-- `HeapPtr::has_significant_meta()`. -/
  hasSignificantMeta : Bool
  /-- `HeapPtr::eq_ignoring_meta(&self, other)`. -/
  eqIgnoringMeta : Ptr M → Ptr M → Bool

/-- The region: `Heap { head, cap, used, indexes }` of `src/heap.rs`.
`base` is the address of the underlying buffer (`head`); `entries` pairs each
directory pointer with the value stored at its address. -/
structure Heap (V M : Type) where
  base : Nat
  cap : Nat
  used : Nat
  entries : List (Ptr M × V)
deriving DecidableEq, Repr

namespace Heap

variable {V M : Type} [DecidableEq V] [DecidableEq M]

/-- `Heap::new(size)`: empty directory, `used = 0`, fixed capacity.
The buffer address is abstract, hence a parameter. -/
def new (base cap : Nat) : Heap V M :=
  { base := base, cap := cap, used := 0, entries := [] }

/-- The directory (`indexes`): the ordered list of pointers. -/
def dir (h : Heap V M) : List (Ptr M) :=
  h.entries.map Prod.fst

/-- `Heap::len`. -/
def len (h : Heap V M) : Nat :=
  h.entries.length

/-- `Heap::push_with(v, with)`: bump-allocate at `head + used`, build the
pointer with `from_raw_ptr`, apply the transform, append to the directory,
advance `used`; `none` when `cap - used < size`. -/
def pushWith (m : GcModel V M) (h : Heap V M) (v : V) (f : Ptr M → Ptr M) :
    Option (Ptr M × Heap V M) :=
  let size := m.size v
  if h.cap - h.used < size then
    none
  else
    let newPtr := f ⟨h.base + h.used, m.freshMeta⟩
    some (newPtr,
      { h with entries := h.entries ++ [(newPtr, v)], used := h.used + size })

/-- `Heap::push(v) = push_with(v, |x| x)`. -/
def push (m : GcModel V M) (h : Heap V M) (v : V) : Option (Ptr M × Heap V M) :=
  pushWith m h v (fun x => x)

/-- `Heap::get_by(ptr)`: first directory entry equal (`==`, metadata
included) to the pointer, if any. -/
def getBy (h : Heap V M) (p : Ptr M) : Option V :=
  (h.entries.find? (fun e => decide (e.1 = p))).map Prod.snd

/-- `Heap::contains_ptr(ptr)`. -/
def containsPtr (h : Heap V M) (p : Ptr M) : Bool :=
  h.entries.any (fun e => decide (e.1 = p))

/-- `Heap::to_full_ptr(ptr)`: the first directory entry matching under
`eq_ignoring_meta`; the source `unwrap`s, so `none` = panic. -/
def toFullPtr (m : GcModel V M) (h : Heap V M) (p : Ptr M) : Option (Ptr M) :=
  (h.entries.find? (fun e => m.eqIgnoringMeta e.1 p)).map Prod.fst

/-- `Heap::take(idx)`: remove the directory entry at `idx` (order of the
others preserved), return the boxed-out value with its former pointer.
`used` and the arena bytes are untouched. `none` = the out-of-bounds panic
of `Vec::remove`. -/
def take (h : Heap V M) (i : Nat) : Option ((V × Ptr M) × Heap V M) :=
  if hlt : i < h.entries.length then
    let e := h.entries.get ⟨i, hlt⟩
    some ((e.2, e.1), { h with entries := h.entries.eraseIdx i })
  else
    none

/-- `Heap::reset`: run every destructor (the returned list, in directory
order), set `used = 0`. Exactly as in the source: the directory is NOT
cleared. -/
def reset (h : Heap V M) : Heap V M × List V :=
  ({ h with used := 0 }, h.entries.map Prod.snd)

end Heap

/-!
## The mark-and-sweep collector (`src/gc/mas.rs`)
-/

/-- Short-circuiting monadic map over `Option`, the behaviour of a Rust loop
whose body may panic: the first failure aborts the whole traversal. -/
def optMapList {α β : Type} (f : α → Option β) : List α → Option (List β)
  | [] => some []
  | a :: as =>
    match f a with
    | none => none
    | some b => (optMapList f as).map (b :: ·)

variable {V M : Type}

/-- Canonicalisation of a traced pointer inside `mark_reachable`:
`if Ptr::has_significant_meta() { ptr = heap.to_full_ptr(&ptr); }`.
`none` = the `unwrap` panic inside `to_full_ptr`. -/
def canonOf [DecidableEq V] [DecidableEq M] (m : GcModel V M) (h : Heap V M)
    (q : Ptr M) : Option (Ptr M) :=
  if m.hasSignificantMeta then h.toFullPtr m q else some q

/-- Result of the mark loop. `fuelOut` is the exhaustion of the explicit
fuel bound (proved impossible for `gcFuel`); `panicked` is the source's
`panic!("Managed pointer ... not in heap")` or the `unwrap` in
`to_full_ptr`. -/
inductive MarkOut (M : Type) where
  | fuelOut
  | panicked
  | ok (marked : List (Ptr M))
deriving DecidableEq, Repr

/-- The body of `mark_reachable`: pop a pointer from the stack; panic if it
is not in the heap; skip it if already marked; otherwise mark it, collect
its managed pointers, canonicalise each when metadata is significant, and
push them. The `marked` HashSet (full pointer equality) is a duplicate-free
list; pushing `qs` one at a time onto a `Vec` stack means the next pop takes
the last of `qs`, hence `qs.reverse ++ rest`. -/
def markLoop [DecidableEq V] [DecidableEq M] (m : GcModel V M) (h : Heap V M) :
    Nat → List (Ptr M) → List (Ptr M) → MarkOut M
  | _, [], marked => .ok marked
  | 0, _ :: _, _ => .fuelOut
  | fuel + 1, current :: rest, marked =>
    match h.getBy current with
    | none => .panicked
    | some v =>
      if current ∈ marked then
        markLoop m h fuel rest marked
      else
        match optMapList (canonOf m h) (m.collectManagedPointers v current) with
        | none => .panicked
        | some qs => markLoop m h fuel (qs.reverse ++ rest) (current :: marked)

/-- The largest number of managed pointers any stored value reports. -/
def maxEdges (m : GcModel V M) (h : Heap V M) : Nat :=
  (h.entries.map (fun e => (m.collectManagedPointers e.2 e.1).length)).foldr max 0

/-- Fuel sufficient for the whole mark traversal (proved in
`markLoop_ne_fuelOut`). -/
def gcFuel (m : GcModel V M) (h : Heap V M) : Nat :=
  h.entries.length * (maxEdges m h + 1) + 2

/-- The root loop of the mark phase:
`for root in &roots { mark_reachable(&mut self.active, root, &mut marked); }`,
one `mark_reachable` call per strong root, sharing the `marked` set and
aborting at the first panic. -/
def markAllAux [DecidableEq V] [DecidableEq M] (m : GcModel V M)
    (h : Heap V M) : List (Ptr M) → List (Ptr M) → MarkOut M
  | [], marked => .ok marked
  | r :: rs, marked =>
    match markLoop m h (gcFuel m h) [r] marked with
    | .ok marked' => markAllAux m h rs marked'
    | e => e

/-- The mark phase of `gc`, starting from an empty `marked` set. -/
def markAll [DecidableEq V] [DecidableEq M] (m : GcModel V M) (h : Heap V M)
    (roots : List (Ptr M)) : MarkOut M :=
  markAllAux m h roots []

/-- The relocation map (`rel : HashMap<old, new>`) as an association list;
`insert` prepends, so a later insert shadows an earlier one exactly as a
`HashMap` overwrite, and lookup takes the first (most recent) match under
full pointer equality. -/
def relLookup [DecidableEq M] (rel : List (Ptr M × Ptr M)) (p : Ptr M) :
    Option (Ptr M) :=
  (rel.find? (fun e => decide (e.1 = p))).map Prod.snd

/-- The sweep/compact phase: `for i in (0..len).rev() { take(i); ... }`.
Taking the highest index first visits the old entries from last to first,
so the loop consumes `entries.reverse`. A marked survivor is pushed into
`next` with `copy_meta` from its old pointer (`none` = the "could not
allocate space in inactive heap" panic); an unmarked value is dropped
(appended to `dropped` in destruction order). -/
def sweep [DecidableEq V] [DecidableEq M] (m : GcModel V M)
    (marked : List (Ptr M)) :
    List (Ptr M × V) → Heap V M → List (Ptr M × Ptr M) → List V →
    Option (Heap V M × List (Ptr M × Ptr M) × List V)
  | [], next, rel, dropped => some (next, rel, dropped)
  | (p, v) :: rest, next, rel, dropped =>
    if p ∈ marked then
      match next.pushWith m v (fun x => ⟨x.addr, m.copyMeta x.meta p.meta⟩) with
      | none => none
      | some (np, next') => sweep m marked rest next' ((p, np) :: rel) dropped
    else
      sweep m marked rest next rel (dropped ++ [v])

/-- The rewrite phase: `next.for_each_mut(|o, this| o.adjust_ptrs(find, this))`
where `find` looks a pointer up in the relocation map and panics when it is
absent (hence the `Option`). -/
def rewriteAll [DecidableEq V] [DecidableEq M] (m : GcModel V M)
    (rel : List (Ptr M × Ptr M)) (h : Heap V M) : Option (Heap V M) :=
  (optMapList
      (fun (e : Ptr M × V) =>
        (m.adjustPtrs e.2 (relLookup rel) e.1).map (fun v' => (e.1, v')))
      h.entries).map
    (fun entries' => { h with entries := entries' })

/-- Everything observable after `MarkAndSweepMem::gc`: the new active
region, the rewritten strong and weak root slots, the values destructed (in
destruction order), and the relocation map built during the sweep (kept in
the result so theorems can speak about survivors). -/
structure GcResult (V M : Type) where
  heap : Heap V M
  roots : List (Ptr M)
  weaks : List (Ptr M)
  dropped : List V
  rel : List (Ptr M × Ptr M)
deriving DecidableEq, Repr

/-- `MarkAndSweepMem::gc(roots, weaks)` over the active region `h`:
mark from the strong roots, sweep/compact into a fresh region of equal
capacity at buffer address `nextBase`, rewrite survivors' internal pointers,
reset and discard the old region (it is empty after the takes, so nothing
drops), update each strong root through the relocation map (panicking when
absent) and each weak root only when its exact pointer is a key of the map.
`none` = any panic along the way. -/
def gc [DecidableEq V] [DecidableEq M] (m : GcModel V M) (h : Heap V M)
    (nextBase : Nat) (roots weaks : List (Ptr M)) : Option (GcResult V M) :=
  match markAll m h roots with
  | .ok marked =>
    match sweep m marked h.entries.reverse (Heap.new nextBase h.cap) [] [] with
    | some (next, rel, dropped) =>
      match rewriteAll m rel next with
      | some next' =>
        match optMapList (relLookup rel) roots with
        | some newRoots =>
          some
            { heap := next'
              roots := newRoots
              weaks := weaks.map (fun w => (relLookup rel w).getD w)
              dropped := dropped
              rel := rel }
        | none => none
      | none => none
    | none => none
  | _ => none

/-!
## The reference graph

`Edge m h p q` holds when the value found at `p` (by full-equality directory
lookup) reports a managed pointer that the mark phase would turn into `q`
(canonicalised through `to_full_ptr` when metadata is significant; a pointer
whose canonicalisation fails is kept as itself — the traversal then panics
on it). `Reaches` is the reflexive-transitive closure: reachability in the
directed graph of managed pointers.
-/

/-- A canonicalisation attempt that keeps the pointer when `to_full_ptr`
would panic (the traversal still examines — and dies on — that pointer). -/
def canonOrSelf [DecidableEq V] [DecidableEq M] (m : GcModel V M)
    (h : Heap V M) (q : Ptr M) : Ptr M :=
  (canonOf m h q).getD q

/-- One managed-pointer edge of the reference graph, as traced by the
collector. -/
def Edge [DecidableEq V] [DecidableEq M] (m : GcModel V M) (h : Heap V M)
    (p q : Ptr M) : Prop :=
  ∃ v, h.getBy p = some v ∧
    ∃ q₀ ∈ m.collectManagedPointers v p, canonOrSelf m h q₀ = q

/-- Reachability in the directed graph of managed pointers. -/
def Reaches [DecidableEq V] [DecidableEq M] (m : GcModel V M) (h : Heap V M) :
    Ptr M → Ptr M → Prop :=
  Relation.ReflTransGen (Edge m h)

/-- The pointers the mark phase examines: the strong roots and, from any
traced pointer whose value is in the heap, every reported managed pointer
after canonicalisation. -/
inductive Traced [DecidableEq V] [DecidableEq M] (m : GcModel V M)
    (h : Heap V M) (roots : List (Ptr M)) : Ptr M → Prop where
  | root {r : Ptr M} : r ∈ roots → Traced m h roots r
  | step {p : Ptr M} {v : V} {q : Ptr M} :
      Traced m h roots p → h.getBy p = some v →
      q ∈ m.collectManagedPointers v p →
      Traced m h roots (canonOrSelf m h q)


/-!
## Auxiliary definitions for the proofs and for concrete witnesses
-/

/-- The number of directory pointers not yet marked: the decreasing measure
of the mark loop. -/
def unmarkedCount {V M : Type} [DecidableEq V] [DecidableEq M]
    (h : Heap V M) (marked : List (Ptr M)) : Nat :=
  (h.dir.filter (fun p => decide (p ∉ marked))).length

/-- The invariant of the mark loop: every marked pointer's value is in the
heap and each of its managed pointers canonicalises to something already
marked or still on the stack. With an empty stack this is exact closure of
the marked set under the traced edges. -/
def SemiClosed {V M : Type} [DecidableEq V] [DecidableEq M] (m : GcModel V M)
    (h : Heap V M) (marked stack : List (Ptr M)) : Prop :=
  ∀ p ∈ marked, ∃ v, h.getBy p = some v ∧
    ∀ q ∈ m.collectManagedPointers v p, ∃ q',
      canonOf m h q = some q' ∧ (q' ∈ marked ∨ q' ∈ stack)

/-- A one-value region used to exhibit the `reset` bug at a concrete
input. -/
def resetBugHeap : Heap Nat Unit :=
  { base := 0, cap := 4, used := 3, entries := [(⟨0, ()⟩, 7)] }

def noMetaModel : GcModel (List (Ptr Unit)) Unit where
  size v := v.length + 1
  collectManagedPointers v _ := v
  adjustPtrs v f _ := optMapList f v
  freshMeta := ()
  copyMeta s _ := s
  hasSignificantMeta := false
  eqIgnoringMeta a b := decide (a.addr = b.addr)

def demoHeap : Heap (List (Ptr Unit)) Unit :=
  { base := 0, cap := 10, used := 5,
    entries := [(⟨0, ()⟩, [⟨2, ()⟩]), (⟨2, ()⟩, [⟨0, ()⟩]), (⟨4, ()⟩, [])] }

def metaModel : GcModel (List (Ptr Nat)) Nat where
  size v := v.length + 1
  collectManagedPointers v _ := v
  adjustPtrs v f _ := optMapList f v
  freshMeta := 0
  copyMeta _ o := o
  hasSignificantMeta := true
  eqIgnoringMeta a b := decide (a.addr = b.addr)

def metaHeap : Heap (List (Ptr Nat)) Nat :=
  { base := 0, cap := 10, used := 1, entries := [(⟨0, 5⟩, [])] }

/-- The result of `gc noMetaModel demoHeap 100 [⟨0, ()⟩] []` (cycle retained
through the root, third value dropped, survivors in reverse order). -/
def demoOutA : GcResult (List (Ptr Unit)) Unit :=
  { heap := { base := 100, cap := 10, used := 4,
              entries := [(⟨100, ()⟩, [⟨102, ()⟩]),
                          (⟨102, ()⟩, [⟨100, ()⟩])] },
    roots := [⟨102, ()⟩],
    weaks := [],
    dropped := [[]],
    rel := [(⟨0, ()⟩, ⟨102, ()⟩), (⟨2, ()⟩, ⟨100, ()⟩)] }

/-- The result of `gc noMetaModel demoHeap 100 [⟨4, ()⟩] [⟨0, ()⟩]` (only the
third value survives; the weak root's target is reclaimed and the weak slot
keeps its stale pointer). -/
def demoOutC : GcResult (List (Ptr Unit)) Unit :=
  { heap := { base := 100, cap := 10, used := 1,
              entries := [(⟨100, ()⟩, [])] },
    roots := [⟨100, ()⟩],
    weaks := [⟨0, ()⟩],
    dropped := [[⟨0, ()⟩], [⟨2, ()⟩]],
    rel := [(⟨4, ()⟩, ⟨100, ()⟩)] }

/-- The result of `gc metaModel metaHeap 100 [⟨0, 5⟩] [⟨0, 7⟩]`: the single
value survives; the weak root shares its address but not its metadata, so
it is left unchanged. -/
def metaOut : GcResult (List (Ptr Nat)) Nat :=
  { heap := { base := 100, cap := 10, used := 1,
              entries := [(⟨100, 5⟩, [])] },
    roots := [⟨100, 5⟩],
    weaks := [⟨0, 7⟩],
    dropped := [],
    rel := [(⟨0, 5⟩, ⟨100, 5⟩)] }

/-!
## Basic lemmas about the region operations
-/

section RegionLemmas

variable {V M : Type} [DecidableEq V] [DecidableEq M]

theorem getBy_eq_some_mem {h : Heap V M} {p : Ptr M} {v : V}
    (hg : h.getBy p = some v) : (p, v) ∈ h.entries := by
  unfold Heap.getBy at hg
  cases hf : h.entries.find? (fun e => decide (e.1 = p)) with
  | none => rw [hf] at hg; simp at hg
  | some e =>
    rw [hf] at hg
    have he : e ∈ h.entries := List.mem_of_find?_eq_some hf
    have hp : e.1 = p := by
      have := List.find?_some hf
      simpa using this
    simp only [Option.map_some'] at hg
    cases e with
    | mk e1 e2 => cases hg; cases hp; exact he

theorem getBy_isSome_iff {h : Heap V M} {p : Ptr M} :
    (h.getBy p).isSome ↔ p ∈ h.dir := by
  unfold Heap.getBy Heap.dir
  rw [Option.isSome_map', List.find?_isSome]
  constructor
  · rintro ⟨e, he, hp⟩
    simp only [decide_eq_true_eq] at hp
    exact hp ▸ List.mem_map_of_mem Prod.fst he
  · rintro hp
    rcases List.mem_map.mp hp with ⟨e, he, hp⟩
    exact ⟨e, he, by simp [hp]⟩

theorem getBy_eq_none_iff {h : Heap V M} {p : Ptr M} :
    h.getBy p = none ↔ p ∉ h.dir := by
  rw [← getBy_isSome_iff, ← Option.not_isSome_iff_eq_none]

theorem mem_dir_getBy {h : Heap V M} {p : Ptr M} (hp : p ∈ h.dir) :
    ∃ v, h.getBy p = some v := by
  have := getBy_isSome_iff.mpr hp
  exact Option.isSome_iff_exists.mp this

end RegionLemmas

/-- C4. `push` (and `push_with`) fails with "no space" exactly when
`capacity - used < size`; on success it appends the transformed pointer and
its value at the end of the directory, leaves every earlier entry untouched,
advances `used` by exactly the value's size, and returns the very pointer it
stored; `push` is `push_with` with the identity transform. -/
theorem pushWith_no_space_iff {V M : Type} [DecidableEq V] [DecidableEq M]
    (m : GcModel V M) (h : Heap V M) (v : V) (f : Ptr M → Ptr M) :
    (Heap.pushWith m h v f = none ↔ h.cap - h.used < m.size v)
    ∧ (∀ p h', Heap.pushWith m h v f = some (p, h') →
        h'.entries = h.entries ++ [(p, v)] ∧ h'.used = h.used + m.size v ∧
        h'.cap = h.cap ∧ h'.base = h.base ∧
        p = f ⟨h.base + h.used, m.freshMeta⟩)
    ∧ Heap.push m h v = Heap.pushWith m h v (fun x => x) := by
  refine ⟨?_, ?_, rfl⟩ <;> unfold Heap.pushWith <;>
    by_cases hc : h.cap - h.used < m.size v <;> simp [hc] <;>
    try (rintro p h' rfl rfl rfl; simp)

/-- C6. For a valid index, `take` removes exactly the directory entry at
that index (the remaining entries keep their relative order: the result is
the entries before the index followed by the entries after it), returns the
stored value paired with its former pointer, and leaves `used`, `capacity`
and the buffer untouched, so every other entry's address stays valid. -/
theorem take_removes_entry {V M : Type} [DecidableEq V] [DecidableEq M]
    (h : Heap V M) (i : Nat) (hi : i < h.entries.length) :
    ∃ h', Heap.take h i =
        some (((h.entries.get ⟨i, hi⟩).2, (h.entries.get ⟨i, hi⟩).1), h')
      ∧ h'.entries = h.entries.take i ++ h.entries.drop (i + 1)
      ∧ h'.used = h.used ∧ h'.cap = h.cap ∧ h'.base = h.base := by
  refine ⟨{ h with entries := h.entries.eraseIdx i }, ?_, ?_, rfl, rfl, rfl⟩
  · unfold Heap.take
    simp [hi]
  · simp [List.eraseIdx_eq_take_drop_succ]


/-- C2. What `Heap::reset` actually does: every destructor runs exactly once
(the returned list is exactly the stored values) and `used` becomes 0 with
the buffer kept, but — contrary to the claim and to the function's own
doc comment ("Empties this heap") — the directory is NOT cleared: the
entries survive, so on the concrete one-value region `len` stays 1 and
`contains_ptr` still answers `true` for the former pointer. -/
theorem reset_keeps_directory :
    (∀ (V M : Type) (h : Heap V M),
      (Heap.reset h).2 = h.entries.map Prod.snd
      ∧ (Heap.reset h).1.used = 0
      ∧ (Heap.reset h).1.cap = h.cap
      ∧ (Heap.reset h).1.entries = h.entries)
    ∧ (Heap.reset resetBugHeap).2 = [7]
    ∧ (Heap.reset resetBugHeap).1.used = 0
    ∧ (Heap.reset resetBugHeap).1.len = 1
    ∧ Heap.containsPtr (Heap.reset resetBugHeap).1 ⟨0, ()⟩ = true := by
  exact ⟨fun V M h => ⟨rfl, rfl, rfl, rfl⟩, rfl, rfl, rfl, rfl⟩

/-!
## Lemmas about the panic-monadic map, the relocation map and the sweep
-/

section SweepLemmas

variable {V M : Type} [DecidableEq V] [DecidableEq M]

theorem optMapList_eq_some_iff {α β : Type} {f : α → Option β} :
    ∀ {l : List α} {l' : List β},
      optMapList f l = some l' ↔ List.Forall₂ (fun a b => f a = some b) l l'
  | [], l' => by
    unfold optMapList
    constructor
    · rintro h
      cases h
      exact List.Forall₂.nil
    · rintro h
      cases h
      rfl
  | a :: as, l' => by
    unfold optMapList
    constructor
    · intro h
      cases hf : f a with
      | none => rw [hf] at h; simp at h
      | some b =>
        rw [hf] at h
        cases hrest : optMapList f as with
        | none => rw [hrest] at h; simp at h
        | some bs =>
          rw [hrest] at h
          simp only [Option.map_some'] at h
          cases h
          exact List.Forall₂.cons hf (optMapList_eq_some_iff.mp hrest)
    · intro h
      cases h with
      | cons hab hrest =>
        rw [hab, optMapList_eq_some_iff.mpr hrest]
        rfl

theorem relLookup_eq_none_iff {rel : List (Ptr M × Ptr M)} {p : Ptr M} :
    relLookup rel p = none ↔ ∀ np, (p, np) ∉ rel := by
  unfold relLookup
  rw [Option.map_eq_none', List.find?_eq_none]
  constructor
  · intro h np hmem
    have := h _ hmem
    simp at this
  · intro h e he
    simp only [decide_eq_true_eq]
    intro h1
    exact h e.2 (by cases e; cases h1; exact he)

theorem relLookup_some_mem {rel : List (Ptr M × Ptr M)} {p q : Ptr M}
    (h : relLookup rel p = some q) : (p, q) ∈ rel := by
  unfold relLookup at h
  cases hf : rel.find? (fun e => decide (e.1 = p)) with
  | none => rw [hf] at h; simp at h
  | some e =>
    rw [hf] at h
    have he : e ∈ rel := List.mem_of_find?_eq_some hf
    have hp : e.1 = p := by simpa using List.find?_some hf
    simp only [Option.map_some'] at h
    cases e; cases h; cases hp; exact he

theorem relLookup_isSome_iff {rel : List (Ptr M × Ptr M)} {p : Ptr M} :
    (relLookup rel p).isSome ↔ ∃ np, (p, np) ∈ rel := by
  cases hr : relLookup rel p with
  | none =>
    simp only [Option.isSome_none, Bool.false_eq_true, false_iff]
    rintro ⟨np, hnp⟩
    exact relLookup_eq_none_iff.mp hr np hnp
  | some q =>
    simp only [Option.isSome_some, true_iff]
    exact ⟨q, relLookup_some_mem hr⟩

/-- What a successful sweep produces, as a function of the processed
(reversed) entry list: the relocation pairs `fresh` in processing order,
reverse-accumulated into `rel`; the new region extended by exactly the
marked survivors (old pointer order preserved in `fresh`); the dropped
values appended in processing order. -/
theorem sweep_some_spec (m : GcModel V M) (marked : List (Ptr M)) :
    ∀ (revE : List (Ptr M × V)) (next : Heap V M) rel dropped n' r' d',
    sweep m marked revE next rel dropped = some (n', r', d') →
    ∃ fresh : List (Ptr M × Ptr M),
      r' = fresh.reverse ++ rel
      ∧ fresh.map Prod.fst
          = (revE.filter (fun e => decide (e.1 ∈ marked))).map Prod.fst
      ∧ n'.entries.map Prod.fst
          = next.entries.map Prod.fst ++ fresh.map Prod.snd
      ∧ n'.entries.map Prod.snd
          = next.entries.map Prod.snd
            ++ (revE.filter (fun e => decide (e.1 ∈ marked))).map Prod.snd
      ∧ d' = dropped ++ (revE.filter (fun e => !decide (e.1 ∈ marked))).map Prod.snd
      ∧ n'.cap = next.cap ∧ n'.base = next.base
  | [], next, rel, dropped, n', r', d' => by
    intro hs
    unfold sweep at hs
    cases hs
    exact ⟨[], by simp, by simp, by simp, by simp, by simp, rfl, rfl⟩
  | (p, v) :: rest, next, rel, dropped, n', r', d' => by
    intro hs
    unfold sweep at hs
    by_cases hm : p ∈ marked
    · simp only [hm, if_true] at hs
      cases hp : next.pushWith m v (fun x => ⟨x.addr, m.copyMeta x.meta p.meta⟩) with
      | none => rw [hp] at hs; simp at hs
      | some res =>
        rw [hp] at hs
        obtain ⟨np, next1⟩ := res
        have hrec := sweep_some_spec m marked rest next1 ((p, np) :: rel) dropped n' r' d' hs
        obtain ⟨fresh, hr, hf, hnf, hns, hd, hc, hb⟩ := hrec
        -- unpack the push
        unfold Heap.pushWith at hp
        by_cases hcap : next.cap - next.used < m.size v
        · simp [hcap] at hp
        · simp only [hcap, if_false] at hp
          cases hp
          refine ⟨(p, ⟨next.base + next.used, m.copyMeta m.freshMeta p.meta⟩)
            :: fresh, ?_, ?_, ?_, ?_, ?_, hc, hb⟩
          · simp [hr]
          · simp [hf, hm]
          · simp only [List.map_append] at hnf
            simp [hnf, hm]
          · simp only [List.map_append] at hns
            simp [hns, hm]
          · simp [hd, hm]
    · simp only [hm, if_false] at hs
      have hrec := sweep_some_spec m marked rest next rel (dropped ++ [v]) n' r' d' hs
      obtain ⟨fresh, hr, hf, hnf, hns, hd, hc, hb⟩ := hrec
      refine ⟨fresh, hr, ?_, hnf, ?_, ?_, hc, hb⟩
      · simp [hf, hm]
      · simp [hns, hm]
      · simp [hd, hm]

theorem sweep_isSome_of_le (m : GcModel V M) (marked : List (Ptr M)) :
    ∀ (revE : List (Ptr M × V)) (next : Heap V M) rel dropped,
    next.used
        + ((revE.filter (fun e => decide (e.1 ∈ marked))).map
            (fun e => m.size e.2)).sum
      ≤ next.cap →
    (sweep m marked revE next rel dropped).isSome
  | [], next, rel, dropped => by
    intro _
    unfold sweep
    rfl
  | (p, v) :: rest, next, rel, dropped => by
    intro hle
    unfold sweep
    by_cases hm : p ∈ marked
    · simp only [hm, if_true]
      have hsz : next.used + m.size v ≤ next.cap := by
        simp only [List.filter_cons, hm, decide_True, List.map_cons,
          List.sum_cons, if_true, decide_eq_true_eq] at hle
        omega
      cases hp : next.pushWith m v (fun x => ⟨x.addr, m.copyMeta x.meta p.meta⟩) with
      | none =>
        unfold Heap.pushWith at hp
        have : ¬ (next.cap - next.used < m.size v) := by omega
        simp [this] at hp
      | some res =>
        obtain ⟨np, next1⟩ := res
        have hu : next1.used = next.used + m.size v ∧ next1.cap = next.cap := by
          unfold Heap.pushWith at hp
          have : ¬ (next.cap - next.used < m.size v) := by omega
          simp only [this, if_false] at hp
          cases hp
          exact ⟨rfl, rfl⟩
        apply sweep_isSome_of_le
        rw [hu.1, hu.2]
        simp only [List.filter_cons, hm, decide_True, List.map_cons,
          List.sum_cons, if_true, decide_eq_true_eq] at hle
        omega
    · simp only [hm, if_false]
      apply sweep_isSome_of_le
      simp only [List.filter_cons, hm, decide_False, List.map_cons,
        decide_eq_true_eq, if_false] at hle
      simpa using hle

theorem sum_map_filter_le {α : Type} (f : α → Nat) (p : α → Bool) :
    ∀ l : List α, ((l.filter p).map f).sum ≤ (l.map f).sum
  | [] => le_rfl
  | a :: as => by
    by_cases hp : p a <;> simp [List.filter_cons, hp]
    · exact sum_map_filter_le f p as
    · exact le_trans (sum_map_filter_le f p as) (Nat.le_add_left _ _)

end SweepLemmas

/-- C8. Under the Region invariant (`used` is the sum of the stored values'
sizes and `used ≤ capacity`), the sweep phase — exactly as `gc` invokes it,
into a fresh region of equal capacity — never hits the "could not allocate
space in inactive heap" panic, whatever the mark set is: the survivors'
total size is bounded by the old region's `used`. -/
theorem sweep_never_out_of_space {V M : Type} [DecidableEq V] [DecidableEq M]
    (m : GcModel V M) (h : Heap V M) (marked : List (Ptr M)) (nb : Nat)
    (hused : h.used = (h.entries.map (fun e => m.size e.2)).sum)
    (hcap : h.used ≤ h.cap) :
    (sweep m marked h.entries.reverse (Heap.new nb h.cap) [] []).isSome := by
  apply sweep_isSome_of_le
  show 0 + _ ≤ h.cap
  rw [Nat.zero_add]
  calc ((h.entries.reverse.filter (fun e => decide (e.1 ∈ marked))).map
          (fun e => m.size e.2)).sum
      ≤ (h.entries.reverse.map (fun e => m.size e.2)).sum :=
        sum_map_filter_le _ _ _
    _ = (h.entries.map (fun e => m.size e.2)).sum := by
        rw [List.map_reverse, List.sum_reverse]
    _ = h.used := hused.symm
    _ ≤ h.cap := hcap

/-!
## Mark-phase lemmas
-/

section MarkLemmas

variable {V M : Type} [DecidableEq V] [DecidableEq M]

theorem le_foldr_max {l : List Nat} {x : Nat} (hx : x ∈ l) :
    x ≤ l.foldr max 0 := by
  induction l with
  | nil => cases hx
  | cons a as ih =>
    rcases List.mem_cons.mp hx with rfl | hx'
    · exact le_max_left _ _
    · exact le_trans (ih hx') (le_max_right _ _)

theorem edges_le_maxEdges {m : GcModel V M} {h : Heap V M} {p : Ptr M} {v : V}
    (hg : h.getBy p = some v) :
    (m.collectManagedPointers v p).length ≤ maxEdges m h := by
  have hmem := getBy_eq_some_mem hg
  exact le_foldr_max
    (List.mem_map_of_mem (fun e => (m.collectManagedPointers e.2 e.1).length) hmem)


theorem unmarkedCount_le (h : Heap V M) (marked : List (Ptr M)) :
    unmarkedCount h marked ≤ h.entries.length := by
  unfold unmarkedCount
  calc (h.dir.filter (fun p => decide (p ∉ marked))).length
      ≤ h.dir.length := (List.filter_sublist _).length_le
    _ = h.entries.length := by simp [Heap.dir]

theorem unmarkedCount_lt {h : Heap V M} {marked : List (Ptr M)} {c : Ptr M}
    (hc : c ∈ h.dir) (hnc : c ∉ marked) :
    unmarkedCount h (c :: marked) < unmarkedCount h marked := by
  unfold unmarkedCount
  revert hc
  generalize h.dir = l
  intro hc
  induction l with
  | nil => cases hc
  | cons a as ih =>
    by_cases hac : a = c
    · subst hac
      rw [List.filter_cons, List.filter_cons]
      have h1 : (decide (a ∉ a :: marked)) = false := by simp
      have h2 : (decide (a ∉ marked)) = true := by simpa using hnc
      rw [h1, h2]
      simp only [List.length_cons]
      refine Nat.lt_succ_of_le (List.Sublist.length_le ?_)
      exact List.monotone_filter_right as
        (fun x hx => by
          simp only [decide_eq_true_eq, List.mem_cons] at hx ⊢
          tauto)
    · have ha : c ∈ as := by
        rcases List.mem_cons.mp hc with h' | h'
        · exact absurd h'.symm hac
        · exact h'
      rw [List.filter_cons, List.filter_cons]
      have heq : decide (a ∉ c :: marked) = decide (a ∉ marked) := by
        by_cases hm : a ∈ marked <;> simp [hm, hac]
      rw [heq]
      cases hdec : decide (a ∉ marked) with
      | false => exact ih ha
      | true => simpa using Nat.succ_lt_succ (ih ha)

theorem optMapList_mem_right {α β : Type} {f : α → Option β} :
    ∀ {l : List α} {l' : List β}, optMapList f l = some l' →
      ∀ b ∈ l', ∃ a ∈ l, f a = some b := by
  intro l
  induction l with
  | nil =>
    intro l' h b hb
    unfold optMapList at h
    cases h
    cases hb
  | cons a as ih =>
    intro l' h b hb
    unfold optMapList at h
    cases hf : f a with
    | none => rw [hf] at h; simp at h
    | some b0 =>
      rw [hf] at h
      cases hrest : optMapList f as with
      | none => rw [hrest] at h; simp at h
      | some bs =>
        rw [hrest] at h
        simp only [Option.map_some'] at h
        cases h
        rcases List.mem_cons.mp hb with rfl | hb'
        · exact ⟨a, List.mem_cons_self _ _, hf⟩
        · rcases ih hrest b hb' with ⟨a', ha', hfa'⟩
          exact ⟨a', List.mem_cons_of_mem _ ha', hfa'⟩

theorem optMapList_mem_left {α β : Type} {f : α → Option β} :
    ∀ {l : List α} {l' : List β}, optMapList f l = some l' →
      ∀ a ∈ l, ∃ b ∈ l', f a = some b := by
  intro l
  induction l with
  | nil =>
    intro l' h a ha
    cases ha
  | cons a0 as ih =>
    intro l' h a ha
    unfold optMapList at h
    cases hf : f a0 with
    | none => rw [hf] at h; simp at h
    | some b0 =>
      rw [hf] at h
      cases hrest : optMapList f as with
      | none => rw [hrest] at h; simp at h
      | some bs =>
        rw [hrest] at h
        simp only [Option.map_some'] at h
        cases h
        rcases List.mem_cons.mp ha with rfl | ha'
        · exact ⟨b0, List.mem_cons_self _ _, hf⟩
        · rcases ih hrest a ha' with ⟨b, hb, hfb⟩
          exact ⟨b, List.mem_cons_of_mem _ hb, hfb⟩

theorem optMapList_eq_none_iff {α β : Type} {f : α → Option β} :
    ∀ {l : List α}, optMapList f l = none ↔ ∃ a ∈ l, f a = none
  | [] => by
    unfold optMapList
    simp
  | a :: as => by
    unfold optMapList
    cases hf : f a with
    | none => simp [hf]
    | some b =>
      cases hrest : optMapList f as with
      | none =>
        simp only [Option.map_none', true_iff]
        rcases optMapList_eq_none_iff.mp hrest with ⟨a', ha', hfa'⟩
        exact ⟨a', List.mem_cons_of_mem _ ha', hfa'⟩
      | some bs =>
        simp only [Option.map_some']
        constructor
        · intro hcon
          cases hcon
        · rintro ⟨a', ha', hfa'⟩
          rcases List.mem_cons.mp ha' with rfl | ha''
          · rw [hf] at hfa'; cases hfa'
          · rcases optMapList_mem_left hrest a' ha'' with ⟨b', _, hfb'⟩
            rw [hfb'] at hfa'
            cases hfa'

theorem canonOrSelf_eq_of_some {m : GcModel V M} {h : Heap V M} {q q' : Ptr M}
    (hc : canonOf m h q = some q') : canonOrSelf m h q = q' := by
  unfold canonOrSelf
  rw [hc]
  rfl

theorem canonOrSelf_eq_self_of_none {m : GcModel V M} {h : Heap V M} {q : Ptr M}
    (hc : canonOf m h q = none) : canonOrSelf m h q = q := by
  unfold canonOrSelf
  rw [hc]
  rfl

theorem canonOf_none_getBy_none {m : GcModel V M} {h : Heap V M} {q : Ptr M}
    (hco : ∀ a : Ptr M, m.eqIgnoringMeta a a = true)
    (hc : canonOf m h q = none) : h.getBy q = none := by
  unfold canonOf at hc
  by_cases hsig : m.hasSignificantMeta
  · rw [if_pos hsig] at hc
    unfold Heap.toFullPtr at hc
    rw [Option.map_eq_none'] at hc
    rw [List.find?_eq_none] at hc
    rw [getBy_eq_none_iff]
    intro hmem
    rcases List.mem_map.mp hmem with ⟨e, he, hp⟩
    have := hc e he
    rw [hp] at this
    exact this (hco q)
  · rw [if_neg hsig] at hc
    cases hc

theorem canonOf_some_mem_dir {m : GcModel V M} {h : Heap V M} {q q' : Ptr M}
    (hsig : m.hasSignificantMeta = true)
    (hc : canonOf m h q = some q') : q' ∈ h.dir := by
  unfold canonOf at hc
  rw [if_pos hsig] at hc
  unfold Heap.toFullPtr at hc
  cases hf : h.entries.find? (fun e => m.eqIgnoringMeta e.1 q) with
  | none => rw [hf] at hc; cases hc
  | some e =>
    rw [hf] at hc
    simp only [Option.map_some'] at hc
    cases hc
    exact List.mem_map_of_mem Prod.fst (List.mem_of_find?_eq_some hf)

end MarkLemmas

section MarkLoopLemmas

variable {V M : Type} [DecidableEq V] [DecidableEq M]

theorem markLoop_ne_fuelOut {m : GcModel V M} {h : Heap V M} :
    ∀ (fuel : Nat) (stack marked : List (Ptr M)),
    (∀ p ∈ marked, p ∈ h.dir) →
    stack.length + unmarkedCount h marked * (maxEdges m h + 1) < fuel →
    markLoop m h fuel stack marked ≠ .fuelOut := by
  intro fuel
  induction fuel with
  | zero => intro stack marked _ hlt; omega
  | succ fuel ih =>
    intro stack marked hsub hlt
    cases stack with
    | nil => simp [markLoop]
    | cons current rest =>
      simp only [markLoop]
      cases hget : h.getBy current with
      | none => intro hcon; exact MarkOut.noConfusion hcon
      | some v =>
        simp only []
        by_cases hm : current ∈ marked
        · rw [if_pos hm]
          apply ih rest marked hsub
          simp only [List.length_cons] at hlt
          omega
        · rw [if_neg hm]
          cases hcl : optMapList (canonOf m h) (m.collectManagedPointers v current) with
          | none => intro hcon; exact MarkOut.noConfusion hcon
          | some qs =>
            apply ih
            · intro p hp
              rcases List.mem_cons.mp hp with rfl | hp'
              · exact getBy_isSome_iff.mp (by rw [hget]; rfl)
              · exact hsub p hp'
            · have hq : qs.length ≤ maxEdges m h := by
                have hlen : qs.length = (m.collectManagedPointers v current).length :=
                  (List.Forall₂.length_eq (optMapList_eq_some_iff.mp hcl)).symm
                rw [hlen]
                exact edges_le_maxEdges hget
              have hcur : current ∈ h.dir := getBy_isSome_iff.mp (by rw [hget]; rfl)
              have hdec : unmarkedCount h (current :: marked) < unmarkedCount h marked :=
                unmarkedCount_lt hcur hm
              have hmul : (unmarkedCount h (current :: marked) + 1) * (maxEdges m h + 1)
                  ≤ unmarkedCount h marked * (maxEdges m h + 1) :=
                Nat.mul_le_mul_right _ hdec
              have hexp : (unmarkedCount h (current :: marked) + 1) * (maxEdges m h + 1)
                  = unmarkedCount h (current :: marked) * (maxEdges m h + 1)
                    + (maxEdges m h + 1) := by ring
              rw [hexp] at hmul
              simp only [List.length_append, List.length_reverse, List.length_cons] at hlt ⊢
              omega

theorem markLoop_ok_mono {m : GcModel V M} {h : Heap V M} :
    ∀ (fuel : Nat) (stack marked marked' : List (Ptr M)),
    markLoop m h fuel stack marked = .ok marked' → ∀ x ∈ marked, x ∈ marked' := by
  intro fuel
  induction fuel with
  | zero =>
    intro stack marked marked' hml
    cases stack with
    | nil => simp only [markLoop] at hml; cases hml; exact fun x hx => hx
    | cons c rest => simp only [markLoop] at hml; cases hml
  | succ fuel ih =>
    intro stack marked marked' hml
    cases stack with
    | nil => simp only [markLoop] at hml; cases hml; exact fun x hx => hx
    | cons current rest =>
      simp only [markLoop] at hml
      cases hget : h.getBy current with
      | none => rw [hget] at hml; cases hml
      | some v =>
        rw [hget] at hml
        simp only [] at hml
        by_cases hm : current ∈ marked
        · rw [if_pos hm] at hml
          exact ih rest marked marked' hml
        · rw [if_neg hm] at hml
          cases hcl : optMapList (canonOf m h) (m.collectManagedPointers v current) with
          | none => rw [hcl] at hml; cases hml
          | some qs =>
            rw [hcl] at hml
            intro x hx
            exact ih _ _ _ hml x (List.mem_cons_of_mem _ hx)

theorem markLoop_ok_inv {m : GcModel V M} {h : Heap V M} :
    ∀ (fuel : Nat) (stack marked marked' : List (Ptr M)),
    markLoop m h fuel stack marked = .ok marked' →
    (∀ p ∈ marked, p ∈ h.dir) → marked.Nodup →
    (∀ p ∈ marked', p ∈ h.dir) ∧ marked'.Nodup := by
  intro fuel
  induction fuel with
  | zero =>
    intro stack marked marked' hml hsub hnd
    cases stack with
    | nil => simp only [markLoop] at hml; cases hml; exact ⟨hsub, hnd⟩
    | cons c rest => simp only [markLoop] at hml; cases hml
  | succ fuel ih =>
    intro stack marked marked' hml hsub hnd
    cases stack with
    | nil => simp only [markLoop] at hml; cases hml; exact ⟨hsub, hnd⟩
    | cons current rest =>
      simp only [markLoop] at hml
      cases hget : h.getBy current with
      | none => rw [hget] at hml; cases hml
      | some v =>
        rw [hget] at hml
        simp only [] at hml
        by_cases hm : current ∈ marked
        · rw [if_pos hm] at hml
          exact ih rest marked marked' hml hsub hnd
        · rw [if_neg hm] at hml
          cases hcl : optMapList (canonOf m h) (m.collectManagedPointers v current) with
          | none => rw [hcl] at hml; cases hml
          | some qs =>
            rw [hcl] at hml
            refine ih _ _ _ hml ?_ ?_
            · intro p hp
              rcases List.mem_cons.mp hp with rfl | hp'
              · exact getBy_isSome_iff.mp (by rw [hget]; rfl)
              · exact hsub p hp'
            · exact List.nodup_cons.mpr ⟨hm, hnd⟩

theorem markLoop_ok_stack {m : GcModel V M} {h : Heap V M} :
    ∀ (fuel : Nat) (stack marked marked' : List (Ptr M)),
    markLoop m h fuel stack marked = .ok marked' → ∀ p ∈ stack, p ∈ marked' := by
  intro fuel
  induction fuel with
  | zero =>
    intro stack marked marked' hml
    cases stack with
    | nil => intro p hp; cases hp
    | cons c rest => simp only [markLoop] at hml; cases hml
  | succ fuel ih =>
    intro stack marked marked' hml
    cases stack with
    | nil => intro p hp; cases hp
    | cons current rest =>
      simp only [markLoop] at hml
      cases hget : h.getBy current with
      | none => rw [hget] at hml; cases hml
      | some v =>
        rw [hget] at hml
        simp only [] at hml
        by_cases hm : current ∈ marked
        · rw [if_pos hm] at hml
          intro p hp
          rcases List.mem_cons.mp hp with rfl | hp'
          · exact markLoop_ok_mono _ _ _ _ hml p hm
          · exact ih _ _ _ hml p hp'
        · rw [if_neg hm] at hml
          cases hcl : optMapList (canonOf m h) (m.collectManagedPointers v current) with
          | none => rw [hcl] at hml; cases hml
          | some qs =>
            rw [hcl] at hml
            intro p hp
            rcases List.mem_cons.mp hp with rfl | hp'
            · exact markLoop_ok_mono _ _ _ _ hml p (List.mem_cons_self _ _)
            · exact ih _ _ _ hml p (List.mem_append_right _ hp')

end MarkLoopLemmas


section MarkClosureLemmas

variable {V M : Type} [DecidableEq V] [DecidableEq M]

theorem semiClosed_mono_stack {m : GcModel V M} {h : Heap V M}
    {marked stack stack' : List (Ptr M)} (hss : ∀ x ∈ stack, x ∈ stack')
    (hsc : SemiClosed m h marked stack) : SemiClosed m h marked stack' := by
  intro p hp
  rcases hsc p hp with ⟨v, hv, hq⟩
  refine ⟨v, hv, fun q hqm => ?_⟩
  rcases hq q hqm with ⟨q', hc, hmem | hmem⟩
  · exact ⟨q', hc, Or.inl hmem⟩
  · exact ⟨q', hc, Or.inr (hss _ hmem)⟩

theorem markLoop_ok_closed {m : GcModel V M} {h : Heap V M} :
    ∀ (fuel : Nat) (stack marked marked' : List (Ptr M)),
    markLoop m h fuel stack marked = .ok marked' →
    SemiClosed m h marked stack → SemiClosed m h marked' [] := by
  intro fuel
  induction fuel with
  | zero =>
    intro stack marked marked' hml hsc
    cases stack with
    | nil => simp only [markLoop] at hml; cases hml; exact hsc
    | cons c rest => simp only [markLoop] at hml; cases hml
  | succ fuel ih =>
    intro stack marked marked' hml hsc
    cases stack with
    | nil => simp only [markLoop] at hml; cases hml; exact hsc
    | cons current rest =>
      simp only [markLoop] at hml
      cases hget : h.getBy current with
      | none => rw [hget] at hml; cases hml
      | some v =>
        rw [hget] at hml
        simp only [] at hml
        by_cases hm : current ∈ marked
        · rw [if_pos hm] at hml
          refine ih _ _ _ hml ?_
          intro p hp
          rcases hsc p hp with ⟨v', hv', hq⟩
          refine ⟨v', hv', fun q hqm => ?_⟩
          rcases hq q hqm with ⟨q', hc, hmem | hmem⟩
          · exact ⟨q', hc, Or.inl hmem⟩
          · rcases List.mem_cons.mp hmem with rfl | hmem'
            · exact ⟨q', hc, Or.inl hm⟩
            · exact ⟨q', hc, Or.inr hmem'⟩
        · rw [if_neg hm] at hml
          cases hcl : optMapList (canonOf m h) (m.collectManagedPointers v current) with
          | none => rw [hcl] at hml; cases hml
          | some qs =>
            rw [hcl] at hml
            refine ih _ _ _ hml ?_
            intro p hp
            rcases List.mem_cons.mp hp with rfl | hp'
            · refine ⟨v, hget, fun q hqm => ?_⟩
              rcases optMapList_mem_left hcl q hqm with ⟨q', hq', hcq⟩
              exact ⟨q', hcq, Or.inr (List.mem_append_left _ (List.mem_reverse.mpr hq'))⟩
            · rcases hsc p hp' with ⟨v', hv', hq⟩
              refine ⟨v', hv', fun q hqm => ?_⟩
              rcases hq q hqm with ⟨q', hc, hmem | hmem⟩
              · exact ⟨q', hc, Or.inl (List.mem_cons_of_mem _ hmem)⟩
              · rcases List.mem_cons.mp hmem with rfl | hmem'
                · exact ⟨q', hc, Or.inl (List.mem_cons_self _ _)⟩
                · exact ⟨q', hc, Or.inr (List.mem_append_right _ hmem')⟩

theorem markLoop_ok_sound {m : GcModel V M} {h : Heap V M}
    {roots : List (Ptr M)} :
    ∀ (fuel : Nat) (stack marked marked' : List (Ptr M)),
    markLoop m h fuel stack marked = .ok marked' →
    (∀ p ∈ stack, Traced m h roots p) →
    (∀ p ∈ marked, Traced m h roots p) →
    ∀ p ∈ marked', Traced m h roots p := by
  intro fuel
  induction fuel with
  | zero =>
    intro stack marked marked' hml hst hmk
    cases stack with
    | nil => simp only [markLoop] at hml; cases hml; exact hmk
    | cons c rest => simp only [markLoop] at hml; cases hml
  | succ fuel ih =>
    intro stack marked marked' hml hst hmk
    cases stack with
    | nil => simp only [markLoop] at hml; cases hml; exact hmk
    | cons current rest =>
      simp only [markLoop] at hml
      cases hget : h.getBy current with
      | none => rw [hget] at hml; cases hml
      | some v =>
        rw [hget] at hml
        simp only [] at hml
        by_cases hm : current ∈ marked
        · rw [if_pos hm] at hml
          exact ih _ _ _ hml (fun p hp => hst p (List.mem_cons_of_mem _ hp)) hmk
        · rw [if_neg hm] at hml
          cases hcl : optMapList (canonOf m h) (m.collectManagedPointers v current) with
          | none => rw [hcl] at hml; cases hml
          | some qs =>
            rw [hcl] at hml
            have hcur : Traced m h roots current := hst current (List.mem_cons_self _ _)
            refine ih _ _ _ hml ?_ ?_
            · intro p hp
              rcases List.mem_append.mp hp with hp' | hp'
              · rcases optMapList_mem_right hcl p (List.mem_reverse.mp hp') with
                  ⟨q, hq, hcq⟩
                have := Traced.step hcur hget hq
                rwa [canonOrSelf_eq_of_some hcq] at this
              · exact hst p (List.mem_cons_of_mem _ hp')
            · intro p hp
              rcases List.mem_cons.mp hp with rfl | hp'
              · exact hcur
              · exact hmk p hp'

theorem markLoop_panicked_traced {m : GcModel V M} {h : Heap V M}
    {roots : List (Ptr M)}
    (hco : ∀ a : Ptr M, m.eqIgnoringMeta a a = true) :
    ∀ (fuel : Nat) (stack marked : List (Ptr M)),
    markLoop m h fuel stack marked = .panicked →
    (∀ p ∈ stack, Traced m h roots p) →
    ∃ p, Traced m h roots p ∧ h.getBy p = none := by
  intro fuel
  induction fuel with
  | zero =>
    intro stack marked hml hst
    cases stack with
    | nil => simp only [markLoop] at hml; cases hml
    | cons c rest => simp only [markLoop] at hml; cases hml
  | succ fuel ih =>
    intro stack marked hml hst
    cases stack with
    | nil => simp only [markLoop] at hml; cases hml
    | cons current rest =>
      simp only [markLoop] at hml
      cases hget : h.getBy current with
      | none =>
        exact ⟨current, hst current (List.mem_cons_self _ _), hget⟩
      | some v =>
        rw [hget] at hml
        simp only [] at hml
        by_cases hm : current ∈ marked
        · rw [if_pos hm] at hml
          exact ih _ _ hml (fun p hp => hst p (List.mem_cons_of_mem _ hp))
        · rw [if_neg hm] at hml
          have hcur : Traced m h roots current := hst current (List.mem_cons_self _ _)
          cases hcl : optMapList (canonOf m h) (m.collectManagedPointers v current) with
          | none =>
            rcases optMapList_eq_none_iff.mp hcl with ⟨q, hq, hcq⟩
            have htr := Traced.step hcur hget hq
            rw [canonOrSelf_eq_self_of_none hcq] at htr
            exact ⟨q, htr, canonOf_none_getBy_none hco hcq⟩
          | some qs =>
            rw [hcl] at hml
            refine ih _ _ hml ?_
            intro p hp
            rcases List.mem_append.mp hp with hp' | hp'
            · rcases optMapList_mem_right hcl p (List.mem_reverse.mp hp') with
                ⟨q, hq, hcq⟩
              have := Traced.step hcur hget hq
              rwa [canonOrSelf_eq_of_some hcq] at this
            · exact hst p (List.mem_cons_of_mem _ hp')

end MarkClosureLemmas

section MarkAllLemmas

variable {V M : Type} [DecidableEq V] [DecidableEq M]

theorem markAllAux_ne_fuelOut {m : GcModel V M} {h : Heap V M} :
    ∀ (roots marked : List (Ptr M)),
    (∀ p ∈ marked, p ∈ h.dir) → marked.Nodup →
    markAllAux m h roots marked ≠ .fuelOut := by
  intro roots
  induction roots with
  | nil =>
    intro marked _ _
    simp only [markAllAux]
    intro hcon
    exact MarkOut.noConfusion hcon
  | cons r rs ih =>
    intro marked hsub hnd
    simp only [markAllAux]
    cases hml : markLoop m h (gcFuel m h) [r] marked with
    | fuelOut =>
      exfalso
      refine markLoop_ne_fuelOut (gcFuel m h) [r] marked hsub ?_ hml
      have h1 : unmarkedCount h marked ≤ h.entries.length := unmarkedCount_le h marked
      have h2 : unmarkedCount h marked * (maxEdges m h + 1)
          ≤ h.entries.length * (maxEdges m h + 1) :=
        Nat.mul_le_mul_right _ h1
      unfold gcFuel
      simp only [List.length_singleton]
      omega
    | panicked =>
      intro hcon
      exact MarkOut.noConfusion hcon
    | ok marked1 =>
      have hinv := markLoop_ok_inv _ _ _ _ hml hsub hnd
      exact ih marked1 hinv.1 hinv.2

theorem markAllAux_ok_mono {m : GcModel V M} {h : Heap V M} :
    ∀ (roots marked marked' : List (Ptr M)),
    markAllAux m h roots marked = .ok marked' → ∀ x ∈ marked, x ∈ marked' := by
  intro roots
  induction roots with
  | nil =>
    intro marked marked' hml
    simp only [markAllAux] at hml
    cases hml
    exact fun x hx => hx
  | cons r rs ih =>
    intro marked marked' hml
    simp only [markAllAux] at hml
    cases hml0 : markLoop m h (gcFuel m h) [r] marked with
    | fuelOut => rw [hml0] at hml; cases hml
    | panicked => rw [hml0] at hml; cases hml
    | ok marked1 =>
      rw [hml0] at hml
      intro x hx
      exact ih _ _ hml x (markLoop_ok_mono _ _ _ _ hml0 x hx)

theorem markAllAux_ok_inv {m : GcModel V M} {h : Heap V M} :
    ∀ (roots marked marked' : List (Ptr M)),
    markAllAux m h roots marked = .ok marked' →
    (∀ p ∈ marked, p ∈ h.dir) → marked.Nodup →
    (∀ p ∈ marked', p ∈ h.dir) ∧ marked'.Nodup := by
  intro roots
  induction roots with
  | nil =>
    intro marked marked' hml hsub hnd
    simp only [markAllAux] at hml
    cases hml
    exact ⟨hsub, hnd⟩
  | cons r rs ih =>
    intro marked marked' hml hsub hnd
    simp only [markAllAux] at hml
    cases hml0 : markLoop m h (gcFuel m h) [r] marked with
    | fuelOut => rw [hml0] at hml; cases hml
    | panicked => rw [hml0] at hml; cases hml
    | ok marked1 =>
      rw [hml0] at hml
      have hinv := markLoop_ok_inv _ _ _ _ hml0 hsub hnd
      exact ih _ _ hml hinv.1 hinv.2

theorem markAllAux_ok_roots {m : GcModel V M} {h : Heap V M} :
    ∀ (roots marked marked' : List (Ptr M)),
    markAllAux m h roots marked = .ok marked' → ∀ r ∈ roots, r ∈ marked' := by
  intro roots
  induction roots with
  | nil =>
    intro marked marked' _ r hr
    cases hr
  | cons r0 rs ih =>
    intro marked marked' hml r hr
    simp only [markAllAux] at hml
    cases hml0 : markLoop m h (gcFuel m h) [r0] marked with
    | fuelOut => rw [hml0] at hml; cases hml
    | panicked => rw [hml0] at hml; cases hml
    | ok marked1 =>
      rw [hml0] at hml
      rcases List.mem_cons.mp hr with rfl | hr'
      · exact markAllAux_ok_mono _ _ _ hml r
          (markLoop_ok_stack _ _ _ _ hml0 r (List.mem_cons_self _ _))
      · exact ih _ _ hml r hr'

theorem markAllAux_ok_closed {m : GcModel V M} {h : Heap V M} :
    ∀ (roots marked marked' : List (Ptr M)),
    markAllAux m h roots marked = .ok marked' →
    SemiClosed m h marked [] → SemiClosed m h marked' [] := by
  intro roots
  induction roots with
  | nil =>
    intro marked marked' hml hsc
    simp only [markAllAux] at hml
    cases hml
    exact hsc
  | cons r rs ih =>
    intro marked marked' hml hsc
    simp only [markAllAux] at hml
    cases hml0 : markLoop m h (gcFuel m h) [r] marked with
    | fuelOut => rw [hml0] at hml; cases hml
    | panicked => rw [hml0] at hml; cases hml
    | ok marked1 =>
      rw [hml0] at hml
      refine ih _ _ hml ?_
      exact markLoop_ok_closed _ _ _ _ hml0
        (semiClosed_mono_stack (fun x hx => by cases hx) hsc)

theorem markAllAux_ok_sound {m : GcModel V M} {h : Heap V M}
    {allRoots : List (Ptr M)} :
    ∀ (roots marked marked' : List (Ptr M)),
    (∀ r ∈ roots, r ∈ allRoots) →
    markAllAux m h roots marked = .ok marked' →
    (∀ p ∈ marked, Traced m h allRoots p) →
    ∀ p ∈ marked', Traced m h allRoots p := by
  intro roots
  induction roots with
  | nil =>
    intro marked marked' _ hml hmk
    simp only [markAllAux] at hml
    cases hml
    exact hmk
  | cons r rs ih =>
    intro marked marked' hsub hml hmk
    simp only [markAllAux] at hml
    cases hml0 : markLoop m h (gcFuel m h) [r] marked with
    | fuelOut => rw [hml0] at hml; cases hml
    | panicked => rw [hml0] at hml; cases hml
    | ok marked1 =>
      rw [hml0] at hml
      refine ih _ _ (fun x hx => hsub x (List.mem_cons_of_mem _ hx)) hml ?_
      refine markLoop_ok_sound _ _ _ _ hml0 ?_ hmk
      intro p hp
      rcases List.mem_cons.mp hp with rfl | hp'
      · exact Traced.root (hsub p (List.mem_cons_self _ _))
      · cases hp'

theorem markAllAux_panicked_traced {m : GcModel V M} {h : Heap V M}
    {allRoots : List (Ptr M)}
    (hco : ∀ a : Ptr M, m.eqIgnoringMeta a a = true) :
    ∀ (roots marked : List (Ptr M)),
    (∀ r ∈ roots, r ∈ allRoots) →
    markAllAux m h roots marked = .panicked →
    ∃ p, Traced m h allRoots p ∧ h.getBy p = none := by
  intro roots
  induction roots with
  | nil =>
    intro marked _ hml
    simp only [markAllAux] at hml
    cases hml
  | cons r rs ih =>
    intro marked hsub hml
    simp only [markAllAux] at hml
    cases hml0 : markLoop m h (gcFuel m h) [r] marked with
    | fuelOut => rw [hml0] at hml; cases hml
    | panicked =>
      refine markLoop_panicked_traced hco _ _ _ hml0 ?_
      intro p hp
      rcases List.mem_cons.mp hp with rfl | hp'
      · exact Traced.root (hsub p (List.mem_cons_self _ _))
      · cases hp'
    | ok marked1 =>
      rw [hml0] at hml
      exact ih _ (fun x hx => hsub x (List.mem_cons_of_mem _ hx)) hml

theorem markAll_ne_fuelOut (m : GcModel V M) (h : Heap V M)
    (roots : List (Ptr M)) : markAll m h roots ≠ .fuelOut :=
  markAllAux_ne_fuelOut roots [] (fun p hp => absurd hp (List.not_mem_nil p))
    List.nodup_nil

theorem markAll_ok_marked_iff_traced {m : GcModel V M} {h : Heap V M}
    {roots marked : List (Ptr M)} (hml : markAll m h roots = .ok marked) :
    ∀ p, p ∈ marked ↔ Traced m h roots p := by
  intro p
  constructor
  · exact fun hp => markAllAux_ok_sound roots [] marked (fun r hr => hr) hml
      (fun x hx => absurd hx (List.not_mem_nil x)) p hp
  · intro htr
    induction htr with
    | root hr => exact markAllAux_ok_roots _ _ _ hml _ hr
    | @step p0 v q htr0 hget hq ihp =>
      have hclosed : SemiClosed m h marked [] :=
        markAllAux_ok_closed _ _ _ hml (fun x hx => absurd hx (List.not_mem_nil x))
      rcases hclosed p0 ihp with ⟨v', hv', hqall⟩
      rw [hget] at hv'
      cases hv'
      rcases hqall q hq with ⟨q', hcq, hmem | hmem⟩
      · rwa [canonOrSelf_eq_of_some hcq]
      · cases hmem

theorem markAll_ok_sub_dir {m : GcModel V M} {h : Heap V M}
    {roots marked : List (Ptr M)} (hml : markAll m h roots = .ok marked) :
    (∀ p ∈ marked, p ∈ h.dir) ∧ marked.Nodup :=
  markAllAux_ok_inv roots [] marked hml
    (fun p hp => absurd hp (List.not_mem_nil p)) List.nodup_nil

theorem markAll_panicked_iff {m : GcModel V M} {h : Heap V M}
    {roots : List (Ptr M)}
    (hco : ∀ a : Ptr M, m.eqIgnoringMeta a a = true) :
    markAll m h roots = .panicked ↔
      ∃ p, Traced m h roots p ∧ p ∉ h.dir := by
  constructor
  · intro hml
    rcases markAllAux_panicked_traced hco roots [] (fun r hr => hr) hml with
      ⟨p, htr, hget⟩
    exact ⟨p, htr, getBy_eq_none_iff.mp hget⟩
  · rintro ⟨p, htr, hnd⟩
    cases hml : markAll m h roots with
    | fuelOut => exact absurd hml (markAll_ne_fuelOut m h roots)
    | panicked => rfl
    | ok marked =>
      exfalso
      have hp : p ∈ marked := (markAll_ok_marked_iff_traced hml p).mpr htr
      exact hnd ((markAll_ok_sub_dir hml).1 p hp)

end MarkAllLemmas

section GcLemmas

variable {V M : Type} [DecidableEq V] [DecidableEq M]

theorem traced_iff_reaches {m : GcModel V M} {h : Heap V M}
    {roots : List (Ptr M)} (p : Ptr M) :
    Traced m h roots p ↔ ∃ r ∈ roots, Reaches m h r p := by
  constructor
  · intro htr
    induction htr with
    | root hr => exact ⟨_, hr, Relation.ReflTransGen.refl⟩
    | @step p0 v q htr0 hget hq ihp =>
      rcases ihp with ⟨r, hr, hpath⟩
      exact ⟨r, hr, hpath.tail ⟨v, hget, q, hq, rfl⟩⟩
  · rintro ⟨r, hr, hpath⟩
    induction hpath with
    | refl => exact Traced.root hr
    | tail _ hedge ih =>
      rcases hedge with ⟨v, hget, q₀, hq₀, hcs⟩
      rw [← hcs]
      exact Traced.step ih hget hq₀

theorem forall₂_map_eq {α β γ : Type} {R : α → β → Prop} {f : α → γ} {g : β → γ}
    (hfg : ∀ a b, R a b → f a = g b) :
    ∀ {l : List α} {l' : List β}, List.Forall₂ R l l' → l.map f = l'.map g := by
  intro l
  induction l with
  | nil =>
    intro l' hfa
    cases hfa
    rfl
  | cons a as ih =>
    intro l' hfa
    cases hfa with
    | cons hab hrest =>
      simp only [List.map_cons]
      rw [hfg _ _ hab, ih hrest]

theorem rewriteAll_some_spec {m : GcModel V M} {rel : List (Ptr M × Ptr M)}
    {h h' : Heap V M} (hrw : rewriteAll m rel h = some h') :
    h'.entries.map Prod.fst = h.entries.map Prod.fst
    ∧ h'.cap = h.cap ∧ h'.base = h.base ∧ h'.used = h.used := by
  unfold rewriteAll at hrw
  cases hopt : optMapList
      (fun (e : Ptr M × V) =>
        (m.adjustPtrs e.2 (relLookup rel) e.1).map (fun v' => (e.1, v')))
      h.entries with
  | none => rw [hopt] at hrw; cases hrw
  | some entries' =>
    rw [hopt] at hrw
    simp only [Option.map_some'] at hrw
    cases hrw
    refine ⟨?_, rfl, rfl, rfl⟩
    have hfa := optMapList_eq_some_iff.mp hopt
    exact (forall₂_map_eq
      (fun a b hab => by
        cases hadj : m.adjustPtrs a.2 (relLookup rel) a.1 with
        | none => rw [hadj] at hab; cases hab
        | some v' =>
          rw [hadj] at hab
          simp only [Option.map_some'] at hab
          cases hab
          rfl)
      hfa).symm

theorem gc_eq_some_unfold {m : GcModel V M} {h : Heap V M} {nb : Nat}
    {roots weaks : List (Ptr M)} {out : GcResult V M}
    (hgc : gc m h nb roots weaks = some out) :
    ∃ marked next rel dropped next' newRoots,
      markAll m h roots = .ok marked
      ∧ sweep m marked h.entries.reverse (Heap.new nb h.cap) [] []
          = some (next, rel, dropped)
      ∧ rewriteAll m rel next = some next'
      ∧ optMapList (relLookup rel) roots = some newRoots
      ∧ out = ⟨next', newRoots,
          weaks.map (fun w => (relLookup rel w).getD w), dropped, rel⟩ := by
  unfold gc at hgc
  cases hmk : markAll m h roots with
  | fuelOut => simp only [hmk] at hgc; cases hgc
  | panicked => simp only [hmk] at hgc; cases hgc
  | ok marked =>
    simp only [hmk] at hgc
    cases hsw : sweep m marked h.entries.reverse (Heap.new nb h.cap) [] [] with
    | none => simp only [hsw] at hgc; cases hgc
    | some res =>
      obtain ⟨next, rel, dropped⟩ := res
      simp only [hsw] at hgc
      cases hrw : rewriteAll m rel next with
      | none => simp only [hrw] at hgc; cases hgc
      | some next' =>
        simp only [hrw] at hgc
        cases hroots : optMapList (relLookup rel) roots with
        | none => simp only [hroots] at hgc; cases hgc
        | some newRoots =>
          simp only [hroots, Option.some.injEq] at hgc
          exact ⟨marked, next, rel, dropped, next', newRoots, rfl, hsw, hrw,
            hroots, hgc.symm⟩

/-- The observable content of a successful collection, phrased against the
old region and the mark set. -/
theorem gc_some_main {m : GcModel V M} {h : Heap V M} {nb : Nat}
    {roots weaks : List (Ptr M)} {out : GcResult V M}
    (hgc : gc m h nb roots weaks = some out) :
    ∃ marked,
      markAll m h roots = .ok marked
      ∧ out.rel.map Prod.fst
          = (h.entries.filter (fun e => decide (e.1 ∈ marked))).map Prod.fst
      ∧ out.heap.dir = (out.rel.map Prod.snd).reverse
      ∧ out.dropped
          = ((h.entries.filter (fun e => !decide (e.1 ∈ marked))).map
              Prod.snd).reverse
      ∧ out.weaks = weaks.map (fun w => (relLookup out.rel w).getD w) := by
  rcases gc_eq_some_unfold hgc with
    ⟨marked, next, rel, dropped, next', newRoots, hmk, hsw, hrw, hroots, hout⟩
  rcases sweep_some_spec m marked _ _ _ _ _ _ _ hsw with
    ⟨fresh, hr, hf, hnf, _, hd, _, _⟩
  subst hout
  refine ⟨marked, hmk, ?_, ?_, ?_, rfl⟩
  · show rel.map Prod.fst = _
    rw [hr]
    simp only [List.append_nil, List.map_reverse, hf, List.filter_reverse,
      List.map_reverse, List.reverse_reverse]
  · show next'.dir = (rel.map Prod.snd).reverse
    unfold Heap.dir
    rw [(rewriteAll_some_spec hrw).1, hnf, hr]
    simp [Heap.new, List.map_reverse]
  · show dropped = _
    rw [hd]
    simp [List.filter_reverse, List.map_reverse]

end GcLemmas

section ClaimTheorems

variable {V M : Type} [DecidableEq V] [DecidableEq M]

theorem mem_keys_iff_marked {h : Heap V M} {marked keys : List (Ptr M)}
    (hkeys : keys = (h.entries.filter (fun e => decide (e.1 ∈ marked))).map
      Prod.fst) (p : Ptr M) :
    p ∈ keys ↔ p ∈ h.dir ∧ p ∈ marked := by
  subst hkeys
  constructor
  · intro hp
    rcases List.mem_map.mp hp with ⟨e, he, hfst⟩
    have hmem := List.mem_of_mem_filter he
    have hpred := List.of_mem_filter he
    simp only [decide_eq_true_eq] at hpred
    exact ⟨hfst ▸ List.mem_map_of_mem Prod.fst hmem, hfst ▸ hpred⟩
  · rintro ⟨hdir, hmk⟩
    rcases List.mem_map.mp hdir with ⟨e, he, hfst⟩
    subst hfst
    refine List.mem_map_of_mem Prod.fst (List.mem_filter.mpr ⟨he, ?_⟩)
    simp only [decide_eq_true_eq]
    exact hmk

/-- C1. After a successful `collect(strong_roots, weak_roots)`, a value of
the old region is retained — its old pointer is relocated and the relocated
pointer is in the new active region's directory — if and only if it is
reachable in the directed graph of managed pointers from some strong root;
in particular with empty strong roots the new region is empty and every
value has been dropped. -/
theorem retained_iff_reachable (m : GcModel V M) (h : Heap V M) (nb : Nat)
    (roots weaks : List (Ptr M)) (out : GcResult V M)
    (hgc : gc m h nb roots weaks = some out) :
    (∀ e ∈ h.entries,
      (∃ q, relLookup out.rel e.1 = some q ∧ q ∈ out.heap.dir)
        ↔ ∃ r ∈ roots, Reaches m h r e.1)
    ∧ (roots = [] →
        out.heap.entries = []
        ∧ out.dropped = (h.entries.map Prod.snd).reverse) := by
  rcases gc_some_main hgc with ⟨marked, hmk, hkeys, hdir, hdrop, _⟩
  constructor
  · intro e he
    constructor
    · rintro ⟨q, hq, _⟩
      have hkey : e.1 ∈ out.rel.map Prod.fst :=
        List.mem_map_of_mem Prod.fst (relLookup_some_mem hq)
      have hmkmem : e.1 ∈ marked := ((mem_keys_iff_marked hkeys e.1).mp hkey).2
      have htr : Traced m h roots e.1 :=
        (markAll_ok_marked_iff_traced hmk e.1).mp hmkmem
      exact (traced_iff_reaches e.1).mp htr
    · intro hreach
      have htr : Traced m h roots e.1 := (traced_iff_reaches e.1).mpr hreach
      have hmkmem : e.1 ∈ marked :=
        (markAll_ok_marked_iff_traced hmk e.1).mpr htr
      have hkey : e.1 ∈ out.rel.map Prod.fst :=
        (mem_keys_iff_marked hkeys e.1).mpr
          ⟨List.mem_map_of_mem Prod.fst he, hmkmem⟩
      have hsome : (relLookup out.rel e.1).isSome :=
        relLookup_isSome_iff.mpr (by
          rcases List.mem_map.mp hkey with ⟨pr, hpr, hfst⟩
          have heta : (pr.1, pr.2) ∈ out.rel := by simpa using hpr
          rw [hfst] at heta
          exact ⟨pr.2, heta⟩)
      rcases Option.isSome_iff_exists.mp hsome with ⟨q, hq⟩
      refine ⟨q, hq, ?_⟩
      have hmem : (e.1, q) ∈ out.rel := relLookup_some_mem hq
      have : q ∈ out.rel.map Prod.snd := List.mem_map_of_mem Prod.snd hmem
      rw [hdir]
      exact List.mem_reverse.mpr this
  · intro hroots
    subst hroots
    have hmk0 : markAll m h ([] : List (Ptr M)) = .ok [] := rfl
    rw [hmk0] at hmk
    cases hmk
    constructor
    · have hdirnil : out.heap.dir = [] := by
        rw [hdir]
        have : out.rel.map Prod.fst = [] := by
          rw [hkeys]
          simp
        have hrelnil : out.rel = [] := List.map_eq_nil.mp this
        rw [hrelnil]
        rfl
      unfold Heap.dir at hdirnil
      exact List.map_eq_nil.mp hdirnil
    · rw [hdrop]
      congr 1
      have : h.entries.filter (fun e => !decide (e.1 ∈ ([] : List (Ptr M))))
          = h.entries := by
        apply List.filter_eq_self.mpr
        intro e _
        simp
      rw [this]

/-- C5. After a successful collection the survivors appear in the new
region's directory in the reverse of their old order: the relocation map
lists the survivors' old pointers as an in-order sublist of the old
directory and the new directory is the reversed list of their new pointers;
and the dropped (unreachable) values are destructed in reverse allocation
order. -/
theorem gc_survivor_order (m : GcModel V M) (h : Heap V M) (nb : Nat)
    (roots weaks : List (Ptr M)) (out : GcResult V M)
    (hgc : gc m h nb roots weaks = some out) :
    out.heap.dir = (out.rel.map Prod.snd).reverse
    ∧ List.Sublist (out.rel.map Prod.fst) h.dir
    ∧ out.dropped = ((h.entries.filter
        (fun e => !decide (e.1 ∈ out.rel.map Prod.fst))).map Prod.snd).reverse := by
  rcases gc_some_main hgc with ⟨marked, hmk, hkeys, hdir, hdrop, _⟩
  refine ⟨hdir, ?_, ?_⟩
  · rw [hkeys]
    exact List.Sublist.map Prod.fst (List.filter_sublist _)
  · rw [hdrop]
    congr 1
    congr 1
    apply List.filter_congr
    intro e he
    have : e.1 ∈ out.rel.map Prod.fst ↔ e.1 ∈ marked := by
      rw [mem_keys_iff_marked hkeys e.1]
      constructor
      · exact fun hx => hx.2
      · exact fun hx => ⟨List.mem_map_of_mem Prod.fst he, hx⟩
    by_cases hm : e.1 ∈ marked
    · simp [hm, this.mpr hm]
    · have : e.1 ∉ out.rel.map Prod.fst := fun hx => hm (this.mp hx)
      simp [hm, this]

/-- C3. Weak roots contribute nothing to reachability: running `gc` with
any other weak-root list yields the same new heap, the same rewritten
strong roots, the same destructed values and the same relocation map. Each
weak root whose exact pointer was relocated (its target survived) is
overwritten with the survivor's new pointer, and each whose target was
reclaimed is left unchanged. -/
theorem weak_roots_powerless (m : GcModel V M) (h : Heap V M) (nb : Nat)
    (roots weaks : List (Ptr M)) (out : GcResult V M)
    (hgc : gc m h nb roots weaks = some out) :
    (∀ weaks' : List (Ptr M), ∃ out', gc m h nb roots weaks' = some out'
      ∧ out'.heap = out.heap ∧ out'.roots = out.roots
      ∧ out'.dropped = out.dropped ∧ out'.rel = out.rel)
    ∧ out.weaks = weaks.map (fun w => (relLookup out.rel w).getD w) := by
  rcases gc_eq_some_unfold hgc with
    ⟨marked, next, rel, dropped, next', newRoots, hmk, hsw, hrw, hroots, hout⟩
  subst hout
  constructor
  · intro weaks'
    refine ⟨⟨next', newRoots, weaks'.map (fun w => (relLookup rel w).getD w),
      dropped, rel⟩, ?_, rfl, rfl, rfl, rfl⟩
    unfold gc
    simp only [hmk, hsw, hrw, hroots]
  · rfl

/-- C10. The weak-root update consults the relocation map under full
equality (address and metadata): a weak pointer that is not a key of the
map — even when some survivor's old pointer has the same address but
different metadata — is left unchanged; no address-only
(`eq_ignoring_meta`) lookup happens for weak roots. -/
theorem weak_update_full_equality (m : GcModel V M) (h : Heap V M) (nb : Nat)
    (roots weaks : List (Ptr M)) (out : GcResult V M) (i : Nat) (w : Ptr M)
    (hgc : gc m h nb roots weaks = some out)
    (hw : weaks.get? i = some w)
    (hnokey : relLookup out.rel w = none)
    (hmeta : ∃ pr ∈ out.rel, pr.1.addr = w.addr ∧ pr.1.meta ≠ w.meta) :
    out.weaks.get? i = some w := by
  rcases gc_some_main hgc with ⟨marked, _, _, _, _, hweaks⟩
  rw [hweaks, List.get?_map, hw]
  simp [hnokey]

/-- C7. Assuming `eq_ignoring_meta` is reflexive (the Pointer contract:
an address-insensitive comparison holds on equal pointers), the mark phase
panics if and only if some traced pointer — a strong root or an internal
pointer after canonicalisation — is not equal, under full equality, to any
directory entry of the active region; and a mark-phase panic aborts the
whole collection. -/
theorem collect_panics_iff_dangling (m : GcModel V M) (h : Heap V M)
    (roots : List (Ptr M))
    (hco : ∀ a : Ptr M, m.eqIgnoringMeta a a = true) :
    (markAll m h roots = .panicked ↔
      ∃ p, Traced m h roots p ∧ p ∉ h.dir)
    ∧ (∀ nb weaks, markAll m h roots = .panicked →
        gc m h nb roots weaks = none) := by
  refine ⟨markAll_panicked_iff hco, ?_⟩
  intro nb weaks hpanic
  unfold gc
  simp only [hpanic]

/-- C9. The iterative mark phase terminates on every heap — the explicit
fuel bound `gcFuel` is never exhausted, cycles and self-references
included — and each pointer is marked at most once (the marked list, whose
entries are exactly the pointers whose managed pointers get enumerated, is
duplicate-free). -/
theorem mark_phase_terminates (m : GcModel V M) (h : Heap V M)
    (roots : List (Ptr M)) :
    markAll m h roots ≠ .fuelOut
    ∧ (∀ marked, markAll m h roots = .ok marked → marked.Nodup) :=
  ⟨markAll_ne_fuelOut m h roots,
    fun _ hml => (markAll_ok_sub_dir hml).2⟩

end ClaimTheorems

/-!
## Concrete witnesses

Each witness instantiates the corresponding theorem on the concrete model
and region defined above, discharging its hypotheses by evaluation.
-/

/-- Witness for C4 at a concrete region and value. -/
theorem pushWith_no_space_iff_witness :
    (Heap.pushWith noMetaModel (Heap.new 3 10) [⟨7, ()⟩] (fun x => x) = none
      ↔ (Heap.new 3 10 : Heap (List (Ptr Unit)) Unit).cap
          - (Heap.new 3 10 : Heap (List (Ptr Unit)) Unit).used
          < noMetaModel.size [⟨7, ()⟩])
    ∧ (∀ p h', Heap.pushWith noMetaModel (Heap.new 3 10) [⟨7, ()⟩]
          (fun x => x) = some (p, h') →
        h'.entries = (Heap.new 3 10 : Heap (List (Ptr Unit)) Unit).entries
            ++ [(p, [⟨7, ()⟩])]
        ∧ h'.used = (Heap.new 3 10 : Heap (List (Ptr Unit)) Unit).used
            + noMetaModel.size [⟨7, ()⟩]
        ∧ h'.cap = (Heap.new 3 10 : Heap (List (Ptr Unit)) Unit).cap
        ∧ h'.base = (Heap.new 3 10 : Heap (List (Ptr Unit)) Unit).base
        ∧ p = (fun x => x)
            ⟨(Heap.new 3 10 : Heap (List (Ptr Unit)) Unit).base
              + (Heap.new 3 10 : Heap (List (Ptr Unit)) Unit).used,
              noMetaModel.freshMeta⟩)
    ∧ Heap.push noMetaModel (Heap.new 3 10) [⟨7, ()⟩]
        = Heap.pushWith noMetaModel (Heap.new 3 10) [⟨7, ()⟩] (fun x => x) :=
  pushWith_no_space_iff noMetaModel (Heap.new 3 10) [⟨7, ()⟩] (fun x => x)

/-- Witness for C6: taking index 0 out of the three-value demo region. -/
theorem take_removes_entry_witness :
    0 < demoHeap.entries.length
    ∧ (∃ h', Heap.take demoHeap 0 =
        some (((demoHeap.entries.get ⟨0, by decide⟩).2,
          (demoHeap.entries.get ⟨0, by decide⟩).1), h')
      ∧ h'.entries = demoHeap.entries.take 0 ++ demoHeap.entries.drop 1
      ∧ h'.used = demoHeap.used ∧ h'.cap = demoHeap.cap
      ∧ h'.base = demoHeap.base) :=
  ⟨by decide, take_removes_entry demoHeap 0 (by decide)⟩

/-- Witness for C8 on the demo region, whose `used` is the sum of its
values' sizes. -/
theorem sweep_never_out_of_space_witness :
    demoHeap.used = (demoHeap.entries.map (fun e => noMetaModel.size e.2)).sum
    ∧ demoHeap.used ≤ demoHeap.cap
    ∧ (sweep noMetaModel [⟨0, ()⟩] demoHeap.entries.reverse
        (Heap.new 100 demoHeap.cap) [] []).isSome :=
  ⟨by decide, by decide,
    sweep_never_out_of_space noMetaModel demoHeap [⟨0, ()⟩] 100
      (by decide) (by decide)⟩

/-- Witness for C1: collecting the demo region (a two-value cycle reachable
from the root plus an unreachable value). -/
theorem retained_iff_reachable_witness :
    gc noMetaModel demoHeap 100 [⟨0, ()⟩] [] = some demoOutA
    ∧ ((∀ e ∈ demoHeap.entries,
        (∃ q, relLookup demoOutA.rel e.1 = some q ∧ q ∈ demoOutA.heap.dir)
          ↔ ∃ r ∈ [(⟨0, ()⟩ : Ptr Unit)], Reaches noMetaModel demoHeap r e.1)
      ∧ ([(⟨0, ()⟩ : Ptr Unit)] = [] →
          demoOutA.heap.entries = []
          ∧ demoOutA.dropped = (demoHeap.entries.map Prod.snd).reverse)) :=
  ⟨by decide,
    retained_iff_reachable noMetaModel demoHeap 100 [⟨0, ()⟩] [] demoOutA
      (by decide)⟩

/-- Witness for C5 on the same collection. -/
theorem gc_survivor_order_witness :
    gc noMetaModel demoHeap 100 [⟨0, ()⟩] [] = some demoOutA
    ∧ (demoOutA.heap.dir = (demoOutA.rel.map Prod.snd).reverse
      ∧ List.Sublist (demoOutA.rel.map Prod.fst) demoHeap.dir
      ∧ demoOutA.dropped = ((demoHeap.entries.filter
          (fun e => !decide (e.1 ∈ demoOutA.rel.map Prod.fst))).map
            Prod.snd).reverse) :=
  ⟨by decide,
    gc_survivor_order noMetaModel demoHeap 100 [⟨0, ()⟩] [] demoOutA
      (by decide)⟩

/-- Witness for C3: a collection whose weak root's target is reclaimed. -/
theorem weak_roots_powerless_witness :
    gc noMetaModel demoHeap 100 [⟨4, ()⟩] [⟨0, ()⟩] = some demoOutC
    ∧ ((∀ weaks' : List (Ptr Unit), ∃ out',
          gc noMetaModel demoHeap 100 [⟨4, ()⟩] weaks' = some out'
          ∧ out'.heap = demoOutC.heap ∧ out'.roots = demoOutC.roots
          ∧ out'.dropped = demoOutC.dropped ∧ out'.rel = demoOutC.rel)
      ∧ demoOutC.weaks = [(⟨0, ()⟩ : Ptr Unit)].map
          (fun w => (relLookup demoOutC.rel w).getD w)) :=
  ⟨by decide,
    weak_roots_powerless noMetaModel demoHeap 100 [⟨4, ()⟩] [⟨0, ()⟩]
      demoOutC (by decide)⟩

/-- Witness for C10: a weak pointer sharing a survivor's address but not
its metadata stays unchanged. -/
theorem weak_update_full_equality_witness :
    gc metaModel metaHeap 100 [⟨0, 5⟩] [⟨0, 7⟩] = some metaOut
    ∧ [(⟨0, 7⟩ : Ptr Nat)].get? 0 = some ⟨0, 7⟩
    ∧ relLookup metaOut.rel ⟨0, 7⟩ = none
    ∧ (∃ pr ∈ metaOut.rel, pr.1.addr = (⟨0, 7⟩ : Ptr Nat).addr
        ∧ pr.1.meta ≠ (⟨0, 7⟩ : Ptr Nat).meta)
    ∧ metaOut.weaks.get? 0 = some ⟨0, 7⟩ :=
  ⟨by decide, by decide, by decide, by decide,
    weak_update_full_equality metaModel metaHeap 100 [⟨0, 5⟩] [⟨0, 7⟩]
      metaOut 0 ⟨0, 7⟩ (by decide) (by decide) (by decide) (by decide)⟩

/-- Witness for C7: a strong root pointing outside the demo region. -/
theorem collect_panics_iff_dangling_witness :
    (∀ a : Ptr Unit, noMetaModel.eqIgnoringMeta a a = true)
    ∧ ((markAll noMetaModel demoHeap [⟨9, ()⟩] = .panicked ↔
        ∃ p, Traced noMetaModel demoHeap [⟨9, ()⟩] p ∧ p ∉ demoHeap.dir)
      ∧ (∀ nb weaks, markAll noMetaModel demoHeap [⟨9, ()⟩] = .panicked →
          gc noMetaModel demoHeap nb [⟨9, ()⟩] weaks = none)) :=
  ⟨fun a => by simp [noMetaModel],
    collect_panics_iff_dangling noMetaModel demoHeap [⟨9, ()⟩]
      (fun a => by simp [noMetaModel])⟩

/-- Witness for C9 on the cyclic demo region. -/
theorem mark_phase_terminates_witness :
    markAll noMetaModel demoHeap [⟨0, ()⟩] ≠ .fuelOut
    ∧ (∀ marked, markAll noMetaModel demoHeap [⟨0, ()⟩] = .ok marked →
        marked.Nodup) :=
  mark_phase_terminates noMetaModel demoHeap [⟨0, ()⟩]
